import Mathlib

/-!
# ChunkViz segmentation engine — verification development

Shallow embedding of the deterministic chunking engine in
`src/services/chunkers.ts` (exported from the services module next to
`gemini.ts`): `estimateTokenCount`, `generateFixedSizeChunks`,
`generateRecursiveChunks`, `generateMarkdownChunks`, `generateJsonChunks`.

Modelling conventions:
* A JavaScript string is a list of UTF-16 code units (`List Nat`).  All
  JS string operations used by the source (`length`, `slice`, `split`,
  `includes`, match counting, `trim`) act on code units, which this
  embedding reproduces; `.length` is the code-unit count, not the
  code-point count.
* `Date.now()` is impure; it is passed as an explicit `now : Nat`
  parameter to every chunk-producing function.
* JS `while` loops are written with an explicit fuel argument; `none`
  means the loop did not finish within the given fuel.  The public
  entry points instantiate the fuel with a bound that is proved (or, at
  divergent inputs, refuted) to be sufficient.
* `JSON.parse` and `JSON.stringify` are host-runtime facilities, not
  repository code; `generateJsonChunks` is therefore parameterised by a
  parse function and a serialisation function.
* Numbers in the config are modelled as `Int` so that zero and negative
  `chunkSize` / `chunkOverlap` configurations are expressible.
-/

/-- A JavaScript string, as its sequence of UTF-16 code units. -/
abbrev JStr := List Nat

/-- `JSON.parse`-style whitespace test used by `String.prototype.trim`:
the ECMAScript WhiteSpace and LineTerminator code units. -/
def isJsWs (u : Nat) : Bool :=
  u == 0x9 || u == 0xA || u == 0xB || u == 0xC || u == 0xD || u == 0x20 ||
  u == 0xA0 || u == 0x1680 || (0x2000 ≤ u && u ≤ 0x200A) ||
  u == 0x2028 || u == 0x2029 || u == 0x202F || u == 0x205F ||
  u == 0x3000 || u == 0xFEFF

/-- `c.trim().length > 0` for a JS string `c`: some unit is not whitespace. -/
def jsTrimNonEmpty (c : JStr) : Bool := c.any (fun u => !isJsWs u)

/-- Membership of a UTF-16 code unit in the CJK character classes of the
regex `/[一-龥぀-ヿ㐀-䶿豈-﫿ｦ-ﾟ]/g`
in `estimateTokenCount`. -/
def isCjk (u : Nat) : Bool :=
  (0x4E00 ≤ u && u ≤ 0x9FA5) || (0x3040 ≤ u && u ≤ 0x30FF) ||
  (0x3400 ≤ u && u ≤ 0x4DBF) || (0xF900 ≤ u && u ≤ 0xFAFF) ||
  (0xFF66 ≤ u && u ≤ 0xFF9F)

/-- `String.prototype.slice(a, b)`: negative indices count from the end,
both indices are clamped to `[0, length]`, and an empty string results
when the clamped start is not below the clamped end. -/
def jsSlice (s : JStr) (a b : Int) : JStr :=
  let len : Int := s.length
  let lo := if a < 0 then max (len + a) 0 else min a len
  let hi := if b < 0 then max (len + b) 0 else min b len
  if lo < hi then (s.take hi.toNat).drop lo.toNat else []

/-- Boolean prefix test on code-unit lists. -/
def isPre : JStr → JStr → Bool
  | [], _ => true
  | _ :: _, [] => false
  | a :: p, b :: s => a == b && isPre p s

/-- Index of the first occurrence of `sep` as a contiguous substring of
`s` (the JS `indexOf` used implicitly by `split`/`includes`). -/
def findSub (sep : JStr) : JStr → Option Nat
  | [] => if isPre sep [] then some 0 else none
  | u :: t => if isPre sep (u :: t) then some 0 else (findSub sep t).map (· + 1)

/-- `String.prototype.includes(sep)`. -/
def jsIncludes (s sep : JStr) : Bool := (findSub sep s).isSome

/-- Splitting loop for a non-empty separator: cut at each occurrence.
The fuel only guards the recursion; `s.length` is always enough. -/
def splitGo (sep : JStr) : Nat → JStr → List JStr
  | 0, s => [s]
  | fuel + 1, s =>
    match findSub sep s with
    | none => [s]
    | some i => s.take i :: splitGo sep fuel (s.drop (i + sep.length))

/-- `String.prototype.split(sep)` with a plain-string separator: an empty
separator splits into the individual code units. -/
def jsSplit (s sep : JStr) : List JStr :=
  match sep with
  | [] => s.map (fun u => [u])
  | _ :: _ => splitGo sep s.length s

/-- Re-attach the separator to every split piece except the last, as
`recurse` does before recursing on the pieces. -/
def withSeps (sep : JStr) : List JStr → List JStr
  | [] => []
  | [p] => [p]
  | p :: q :: rest => (p ++ sep) :: withSeps sep (q :: rest)

/-- Number of Unicode code points encoded by a UTF-16 code-unit list:
a high surrogate followed by a low surrogate forms one code point. -/
def codePointCount : JStr → Nat
  | [] => 0
  | [_] => 1
  | u :: v :: rest =>
    if 0xD800 ≤ u && u < 0xDC00 && 0xDC00 ≤ v && v < 0xE000 then
      1 + codePointCount rest
    else
      1 + codePointCount (v :: rest)

/-- The `Chunk` record of `src/types.ts`. -/
structure Chunk where
  id : String
  index : Nat
  content : JStr
  length : Nat
  tokenCount : Nat
deriving Repr, DecidableEq

/-- The `ChunkingConfig` record of `src/types.ts`.  The semantic-provider
fields are carried but never read by the core chunkers. -/
structure ChunkingConfig where
  chunkSize : Int
  chunkOverlap : Int
  separators : List JStr
  provider : String
  apiKey : String
  baseUrl : String
  semanticModel : String
deriving Repr, DecidableEq

/-- `estimateTokenCount` (chunkers.ts): CJK regex matches count one token
each, the remaining code units a quarter token, rounded up. -/
def estimateTokenCount (text : JStr) : Nat :=
  let cjkCount := text.countP (fun u => isCjk u)
  let otherCount := text.length - cjkCount
  cjkCount + (otherCount + 3) / 4

/-- Chunk constructor shared by all strategies: the id string is
`tag + index + "-" + Date.now()`, `length` is `content.length`, and
`tokenCount` comes from `estimateTokenCount`. -/
def mkChunk (tag : String) (index now : Nat) (content : JStr) : Chunk :=
  { id := tag ++ toString index ++ "-" ++ toString now
    index := index
    content := content
    length := content.length
    tokenCount := estimateTokenCount content }

/-- Wrap a list of contents into `Chunk`s with consecutive indices
starting at `i`. -/
def toChunks (tag : String) (now : Nat) : Nat → List JStr → List Chunk
  | _, [] => []
  | i, c :: rest => mkChunk tag i now c :: toChunks tag now (i + 1) rest

/-- The while loop of `generateFixedSizeChunks`: emit
`text.slice(start, min(start + chunkSize, text.length))`, advance by
`step`, stop when `start ≥ text.length`.  Reachable calls always have
`step ≥ 1`, so fuel `text.length + 1` completes the loop. -/
def fixedGo (text : JStr) (cs : Int) (step : Nat) (now : Nat) :
    Nat → Nat → Nat → List Chunk
  | _, _, 0 => []
  | start, index, fuel + 1 =>
    if start < text.length then
      mkChunk "chunk-" index now
          (jsSlice text start (min ((start : Int) + cs) (text.length : Int))) ::
        fixedGo text cs step now (start + step) (index + 1) fuel
    else []

/-- `generateFixedSizeChunks` (chunkers.ts): guard `chunkSize ≤ 0`, clamp
the overlap to `chunkSize - 1`, then slide a window of `chunkSize` by
`step = chunkSize - effectiveOverlap`. -/
def generateFixedSizeChunks (text : JStr) (config : ChunkingConfig)
    (now : Nat) : List Chunk :=
  if config.chunkSize ≤ 0 then []
  else
    let effectiveOverlap := min config.chunkOverlap (config.chunkSize - 1)
    let step := config.chunkSize - effectiveOverlap
    fixedGo text config.chunkSize step.toNat now 0 0 (text.length + 1)

/-- The hard-split `for` loop in `recurse` (gemini.ts services,
`generateRecursiveChunks`): push `txt.slice(i, i + chunkSize)` and
advance by the UNCLAMPED `chunkSize - chunkOverlap`.  Contrary to the
fixed-size chunker there is no minimum-step guard, so the loop need not
terminate; `none` means the fuel ran out with the loop still running. -/
def hardSplitGo (txt : JStr) (cs step : Int) : Int → Nat → Option (List JStr)
  | i, 0 => if i < (txt.length : Int) then none else some []
  | i, fuel + 1 =>
    if i < (txt.length : Int) then
      match hardSplitGo txt cs step (i + step) fuel with
      | none => none
      | some rest => some (jsSlice txt i (i + cs) :: rest)
    else some []

/-- The `recurse` helper of `generateRecursiveChunks` (Phase A): a text
short enough is one atomic segment; with no separators left the text is
hard-split; otherwise split on the first separator that occurs (pieces
keep their separator except the last) and recurse with the remaining
separators, or skip an absent separator.  The fuel dominates both the
separator recursion depth and the hard-split loop;
`text.length + separators.length + 1` is proved sufficient below. -/
def recurseSeg (cs co : Int) : Nat → JStr → List JStr → Option (List JStr)
  | 0, _, _ => none
  | fuel + 1, txt, seps =>
    if (txt.length : Int) ≤ cs then some [txt]
    else
      match seps with
      | [] => hardSplitGo txt cs (cs - co) 0 (fuel + 1)
      | sep :: nextSeps =>
        if jsIncludes txt sep then
          (withSeps sep (jsSplit txt sep)).foldr
            (fun p acc => (recurseSeg cs co fuel p nextSeps).bind
              (fun segs => acc.bind (fun rest => some (segs ++ rest))))
            (some [])
        else recurseSeg cs co fuel txt nextSeps

/-- Phase B of `generateRecursiveChunks`: accumulate raw segments into a
current unit; when appending would exceed `chunkSize` and the unit is
non-empty, close it as a chunk and seed the next unit with the trailing
`chunkOverlap` characters; flush the final non-empty unit. -/
def packGo (cs co : Int) : List JStr → JStr → List JStr
  | [], current => if current.length > 0 then [current] else []
  | seg :: rest, current =>
    if ((current.length : Int) + (seg.length : Int) > cs) ∧ current.length > 0 then
      current ::
        packGo cs co rest
          (jsSlice current (max 0 ((current.length : Int) - co))
              (current.length : Int) ++ seg)
    else packGo cs co rest (current ++ seg)

/-- `generateRecursiveChunks` (chunkers.ts): Phase A segmentation via
`recurse`, Phase B repacking with overlap, then drop chunks that are
empty after trimming and wrap the rest with `rec-chunk-` ids.
`none` models the infinite loop that `recurse`'s unguarded hard split
can enter (no fuel completes it, see `recurseSeg_zero_step_none`). -/
def generateRecursiveChunks (text : JStr) (config : ChunkingConfig)
    (now : Nat) : Option (List Chunk) :=
  match recurseSeg config.chunkSize config.chunkOverlap
      (text.length + config.separators.length + 1) text config.separators with
  | none => none
  | some rawSegments =>
    some (toChunks "rec-chunk-" now 0
      ((packGo config.chunkSize config.chunkOverlap rawSegments []).filter
        (fun c => jsTrimNonEmpty c)))

/-- `generateMarkdownChunks` (chunkers.ts): delegates to
`generateRecursiveChunks` with the caller-supplied separators. -/
def generateMarkdownChunks (text : JStr) (config : ChunkingConfig)
    (now : Nat) : Option (List Chunk) :=
  generateRecursiveChunks text config now

/-- The dynamic shape of a parsed JSON value, as `processValue` inspects
it: array, non-null object, or anything else (string / number / boolean
/ null).  Payloads of `prim` values are never inspected. -/
inductive JsVal where
  | arr : List JsVal → JsVal
  | obj : List (JStr × JsVal) → JsVal
  | prim : JStr → JsVal

/-- Array batching of `processValue`: flush the batch when the running
size plus the next item (plus 2 overhead) would exceed `chunkSize` and
the batch is non-empty; the item is always appended afterwards. -/
def batchArrGo (str : JsVal → JStr) (cs : Int) :
    List JsVal → List JsVal → Int → List JStr
  | [], batch, _ =>
    if batch.length > 0 then [str (JsVal.arr batch)] else []
  | item :: rest, batch, size =>
    let itemStr := str item
    if (size + (itemStr.length : Int) + 2 > cs) ∧ batch.length > 0 then
      str (JsVal.arr batch) ::
        batchArrGo str cs rest [item] ((itemStr.length : Int) + 2)
    else batchArrGo str cs rest (batch ++ [item]) (size + (itemStr.length : Int) + 2)

/-- Object batching of `processValue`: the same discipline over
key/value entries, with `"key": value` costing `key.length + 4` plus the
serialised value, and base size 2 for the braces. -/
def batchObjGo (str : JsVal → JStr) (cs : Int) :
    List (JStr × JsVal) → List (JStr × JsVal) → Int → List JStr
  | [], cur, _ =>
    if cur.length > 0 then [str (JsVal.obj cur)] else []
  | (k, v) :: rest, cur, size =>
    let propLen : Int := (k.length : Int) + 4 + ((str v).length : Int)
    if (size + propLen + 2 > cs) ∧ cur.length > 0 then
      str (JsVal.obj cur) :: batchObjGo str cs rest [(k, v)] (2 + propLen + 2)
    else batchObjGo str cs rest (cur ++ [(k, v)]) (size + propLen + 2)

/-- `processValue` of `generateJsonChunks`: emit the whole serialisation
if it fits, else batch array items or object entries, else fall back to
the recursive text splitter on the serialised scalar.  Returns the chunk
contents in emission order. -/
def processValue (str : JsVal → JStr) (config : ChunkingConfig) (now : Nat)
    (v : JsVal) : Option (List JStr) :=
  let jsonStr := str v
  if (jsonStr.length : Int) ≤ config.chunkSize then some [jsonStr]
  else
    match v with
    | JsVal.arr items => some (batchArrGo str config.chunkSize items [] 0)
    | JsVal.obj entries => some (batchObjGo str config.chunkSize entries [] 2)
    | JsVal.prim _ =>
      (generateRecursiveChunks jsonStr config now).map
        (fun cks => cks.map Chunk.content)

/-- `generateJsonChunks` (chunkers.ts), parameterised by the host
runtime's `JSON.parse` (`parse`, `none` = exception) and
`JSON.stringify(·, null, 2)` (`str`): on parse failure fall back to
`generateRecursiveChunks` unchanged; otherwise chunk the parsed value
structurally and wrap the contents with `json-chunk-` ids. -/
def generateJsonChunks (parse : JStr → Option JsVal) (str : JsVal → JStr)
    (text : JStr) (config : ChunkingConfig) (now : Nat) :
    Option (List Chunk) :=
  match parse text with
  | none => generateRecursiveChunks text config now
  | some data =>
    (processValue str config now data).map
      (fun contents => toChunks "json-chunk-" now 0 contents)

/-- Reconstruction used by the spec's round-trip properties: concatenate
the chunk contents, dropping the first `co` characters of every chunk
after the first. -/
def reconOverlap (co : Nat) : List Chunk → JStr
  | [] => []
  | c :: rest => c.content ++ (rest.map (fun d => d.content.drop co)).flatten

/-- A chunk without its timestamped id: the fields a chunker computes
purely from text and config. -/
def stripId (c : Chunk) : Nat × JStr × Nat × Nat :=
  (c.index, c.content, c.length, c.tokenCount)

/-- Convenience constructor for configs whose semantic-provider fields
are irrelevant to the core engine. -/
def mkConfig (cs co : Int) (seps : List JStr) : ChunkingConfig :=
  { chunkSize := cs, chunkOverlap := co, separators := seps,
    provider := "", apiKey := "", baseUrl := "", semanticModel := "" }

section Sanity

example : estimateTokenCount [] = 0 := by decide
example : estimateTokenCount [0x6D4B, 0x8BD5] = 2 := by decide
example : estimateTokenCount [97, 98, 99, 100] = 1 := by decide
example : estimateTokenCount [97, 98, 99] = 1 := by decide

-- "AAAAABBBBBCCCCC", chunkSize 5, overlap 0 → AAAAA/BBBBB/CCCCC.
example :
    (generateFixedSizeChunks
        [65, 65, 65, 65, 65, 66, 66, 66, 66, 66, 67, 67, 67, 67, 67]
        { chunkSize := 5, chunkOverlap := 0, separators := [],
          provider := "", apiKey := "", baseUrl := "", semanticModel := "" }
        0).map Chunk.content =
      [[65, 65, 65, 65, 65], [66, 66, 66, 66, 66], [67, 67, 67, 67, 67]] := by
  decide

-- Same input, overlap 2 → windows at 0,3,6,9,12.
example :
    (generateFixedSizeChunks
        [65, 65, 65, 65, 65, 66, 66, 66, 66, 66, 67, 67, 67, 67, 67]
        { chunkSize := 5, chunkOverlap := 2, separators := [],
          provider := "", apiKey := "", baseUrl := "", semanticModel := "" }
        0).map (fun c => c.length) = [5, 5, 5, 5, 3] := by
  decide

-- The recursive chunker at a whitespace-only input returns no chunks.
example :
    generateRecursiveChunks [32]
      { chunkSize := 2, chunkOverlap := 0, separators := [],
        provider := "", apiKey := "", baseUrl := "", semanticModel := "" }
      0 = some [] := by decide

-- Hard split with overlap duplicates characters beyond the declared
-- overlap: "abcdefghij", size 4, overlap 1, no separators.
example :
    (generateRecursiveChunks [97, 98, 99, 100, 101, 102, 103, 104, 105, 106]
        { chunkSize := 4, chunkOverlap := 1, separators := [],
          provider := "", apiKey := "", baseUrl := "", semanticModel := "" }
        0).map (fun cks => cks.map Chunk.content) =
      some [[97, 98, 99, 100], [100, 100, 101, 102, 103],
        [103, 103, 104, 105, 106], [106, 106]] := by decide

-- Splitting with a separator: "ab cd", size 3, overlap 0, sep " ".
example :
    (generateRecursiveChunks [97, 98, 32, 99, 100]
        { chunkSize := 3, chunkOverlap := 0, separators := [[32]],
          provider := "", apiKey := "", baseUrl := "", semanticModel := "" }
        0).map (fun cks => cks.map Chunk.content) =
      some [[97, 98, 32], [99, 100]] := by decide

end Sanity

section Helpers

theorem countP_not_add (p : Nat → Bool) :
    ∀ l : List Nat, l.countP p + l.countP (fun a => !p a) = l.length := by
  intro l
  induction l with
  | nil => rfl
  | cons a t ih =>
    by_cases h : p a <;>
      simp [List.countP_cons, h, Nat.add_assoc, Nat.add_comm, Nat.add_left_comm, ← ih]

theorem toChunks_map_content (tag : String) (now : Nat) :
    ∀ (i : Nat) (l : List JStr),
      (toChunks tag now i l).map Chunk.content = l := by
  intro i l
  induction l generalizing i with
  | nil => rfl
  | cons c rest ih => simp [toChunks, mkChunk, ih]

theorem toChunks_stripId (tag : String) (n₁ n₂ : Nat) :
    ∀ (i : Nat) (l : List JStr),
      (toChunks tag n₁ i l).map stripId = (toChunks tag n₂ i l).map stripId := by
  intro i l
  induction l generalizing i with
  | nil => rfl
  | cons c rest ih => simp [toChunks, mkChunk, stripId, ih]

theorem toChunks_length_eq (tag : String) (now : Nat) :
    ∀ (i : Nat) (l : List JStr) (c : Chunk),
      c ∈ toChunks tag now i l → c.length = c.content.length := by
  intro i l
  induction l generalizing i with
  | nil => intro c hc; simp [toChunks] at hc
  | cons x rest ih =>
    intro c hc
    rcases (by simpa [toChunks] using hc : c = mkChunk tag i now x ∨
        c ∈ toChunks tag now (i + 1) rest) with h | h
    · subst h; rfl
    · exact ih (i + 1) c h

end Helpers

section RecursiveBasics

theorem hardSplitGo_nonpos_step (txt : JStr) (cs step : Int)
    (hstep : step ≤ 0) :
    ∀ (fuel : Nat) (i : Int), i < (txt.length : Int) →
      hardSplitGo txt cs step i fuel = none := by
  intro fuel
  induction fuel with
  | zero => intro i hi; simp [hardSplitGo, hi]
  | succ fuel ih =>
    intro i hi
    simp [hardSplitGo, hi, ih (i + step) (by omega)]

theorem recurseSeg_nil_input (cs co : Int) :
    ∀ (fuel : Nat) (seps : List JStr), seps.length < fuel →
      ∃ segs, recurseSeg cs co fuel [] seps = some segs ∧
        ∀ s ∈ segs, s = [] := by
  intro fuel
  induction fuel with
  | zero => intro seps h; omega
  | succ fuel ih =>
    intro seps h
    by_cases hcs : (0 : Int) ≤ cs
    · exact ⟨[[]], by simp [recurseSeg, hcs], by simp⟩
    · cases seps with
      | nil =>
        refine ⟨[], ?_, by simp⟩
        simp [recurseSeg, hcs, hardSplitGo]
      | cons sep next =>
        by_cases hin : jsIncludes [] sep
        · have hsep : sep = [] := by
            cases sep with
            | nil => rfl
            | cons a t => simp [jsIncludes, findSub, isPre] at hin
          subst hsep
          exact ⟨[], by simp [recurseSeg, hcs, hin, jsSplit, withSeps], by simp⟩
        · obtain ⟨segs, hsome, hall⟩ := ih next (by simp at h ⊢; omega)
          exact ⟨segs, by simp [recurseSeg, hcs, hin, hsome], hall⟩

theorem packGo_all_nil (cs co : Int) :
    ∀ segs, (∀ s ∈ segs, s = []) → packGo cs co segs [] = [] := by
  intro segs
  induction segs with
  | nil => intro _; simp [packGo]
  | cons seg rest ih =>
    intro h
    have hseg : seg = [] := h seg (by simp)
    subst hseg
    rw [packGo, if_neg]
    · simpa using ih (fun s hs => h s (by simp [hs]))
    · rintro ⟨-, h2⟩
      simp at h2

end RecursiveBasics

/-- C4: `estimateTokenCount` returns `cjkCount + ceil(otherCount / 4)`
where `cjkCount` counts the characters in the CJK ranges and
`otherCount` the remaining ones; in particular it maps `""` to 0,
`"测试"` to 2, `"abcd"` to 1 and `"abc"` to 1. -/
theorem estimateTokenCount_spec :
    (∀ s : JStr,
        estimateTokenCount s =
          s.countP (fun u => isCjk u) +
            (s.countP (fun u => !isCjk u) + 3) / 4) ∧
    estimateTokenCount [] = 0 ∧
    estimateTokenCount [0x6D4B, 0x8BD5] = 2 ∧
    estimateTokenCount [97, 98, 99, 100] = 1 ∧
    estimateTokenCount [97, 98, 99] = 1 := by
  refine ⟨fun s => ?_, by decide, by decide, by decide, by decide⟩
  simp only [estimateTokenCount]
  have h := countP_not_add (fun u => isCjk u) s
  omega

/-- C10: on the empty input both the fixed-size and the recursive
chunker return the empty chunk sequence, for every config. -/
theorem empty_input_yields_no_chunks :
    ∀ (config : ChunkingConfig) (now : Nat),
      generateFixedSizeChunks [] config now = [] ∧
      generateRecursiveChunks [] config now = some [] := by
  intro config now
  constructor
  · unfold generateFixedSizeChunks
    split
    · rfl
    · simp [fixedGo]
  · unfold generateRecursiveChunks
    obtain ⟨segs, hsome, hall⟩ :=
      recurseSeg_nil_input config.chunkSize config.chunkOverlap
        (([] : JStr).length + config.separators.length + 1)
        config.separators (by simp)
    rw [hsome]
    simp [packGo_all_nil config.chunkSize config.chunkOverlap segs hall, toChunks]

/-- C7: when the input does not parse as JSON, `generateJsonChunks`
falls back to `generateRecursiveChunks` on the same text and config,
returning its chunks unchanged instead of propagating the failure. -/
theorem generateJsonChunks_invalid_fallback
    (parse : JStr → Option JsVal) (str : JsVal → JStr) (text : JStr)
    (config : ChunkingConfig) (now : Nat) (h : parse text = none) :
    generateJsonChunks parse str text config now =
      generateRecursiveChunks text config now := by
  unfold generateJsonChunks
  rw [h]

theorem generateJsonChunks_invalid_fallback_witness :
    generateJsonChunks (fun _ => none) (fun _ => []) [110, 111, 116]
        (mkConfig 5 1 [[32]]) 0 =
      generateRecursiveChunks [110, 111, 116] (mkConfig 5 1 [[32]]) 0 :=
  generateJsonChunks_invalid_fallback _ _ _ _ _ rfl

/-- C1 (failing input): `recurse`'s terminal hard split advances by the
unclamped `chunkSize - chunkOverlap`, so with `chunkSize = 1`,
`chunkOverlap = 1` and no separators the loop on `"ab"` never advances:
no amount of fuel completes it, and `generateRecursiveChunks` diverges
instead of terminating with a minimum step of 1. -/
theorem recursive_hard_split_diverges :
    (∀ fuel : Nat, recurseSeg 1 1 fuel [97, 98] [] = none) ∧
    generateRecursiveChunks [97, 98] (mkConfig 1 1 []) 0 = none := by
  have h : ∀ fuel : Nat, recurseSeg 1 1 fuel [97, 98] [] = none := by
    intro fuel
    cases fuel with
    | zero => rfl
    | succ fuel =>
      have hd := hardSplitGo_nonpos_step [97, 98] 1 (1 - 1) (by norm_num)
        (fuel + 1) 0 (by norm_num)
      simpa [recurseSeg] using hd
  exact ⟨h, by simp [generateRecursiveChunks, mkConfig, h]⟩


section Determinism

theorem fixedGo_stripId (text : JStr) (cs : Int) (step : Nat) (n₁ n₂ : Nat) :
    ∀ (fuel start index : Nat),
      (fixedGo text cs step n₁ start index fuel).map stripId =
        (fixedGo text cs step n₂ start index fuel).map stripId := by
  intro fuel
  induction fuel with
  | zero => intros; rfl
  | succ fuel ih =>
    intro start index
    by_cases h : start < text.length <;>
      simp [fixedGo, h, mkChunk, stripId, ih]

theorem generateFixedSizeChunks_stripId (text : JStr)
    (config : ChunkingConfig) (n₁ n₂ : Nat) :
    (generateFixedSizeChunks text config n₁).map stripId =
      (generateFixedSizeChunks text config n₂).map stripId := by
  unfold generateFixedSizeChunks
  split
  · rfl
  · exact fixedGo_stripId _ _ _ n₁ n₂ _ _ _

theorem generateRecursiveChunks_stripId (text : JStr)
    (config : ChunkingConfig) (n₁ n₂ : Nat) :
    (generateRecursiveChunks text config n₁).map (List.map stripId) =
      (generateRecursiveChunks text config n₂).map (List.map stripId) := by
  unfold generateRecursiveChunks
  cases recurseSeg config.chunkSize config.chunkOverlap
      (text.length + config.separators.length + 1) text config.separators with
  | none => rfl
  | some segs => simpa using toChunks_stripId "rec-chunk-" n₁ n₂ 0 _

theorem generateRecursiveChunks_contents (text : JStr)
    (config : ChunkingConfig) (n₁ n₂ : Nat) :
    (generateRecursiveChunks text config n₁).map
        (fun cks => cks.map Chunk.content) =
      (generateRecursiveChunks text config n₂).map
        (fun cks => cks.map Chunk.content) := by
  unfold generateRecursiveChunks
  cases recurseSeg config.chunkSize config.chunkOverlap
      (text.length + config.separators.length + 1) text config.separators with
  | none => rfl
  | some segs => simp [toChunks_map_content]

theorem processValue_now_irrelevant (str : JsVal → JStr)
    (config : ChunkingConfig) (n₁ n₂ : Nat) (v : JsVal) :
    processValue str config n₁ v = processValue str config n₂ v := by
  cases v with
  | arr items => rfl
  | obj entries => rfl
  | prim s =>
    simp only [processValue]
    split
    · rfl
    · exact generateRecursiveChunks_contents _ _ n₁ n₂

theorem generateJsonChunks_stripId (parse : JStr → Option JsVal)
    (str : JsVal → JStr) (text : JStr) (config : ChunkingConfig)
    (n₁ n₂ : Nat) :
    (generateJsonChunks parse str text config n₁).map (List.map stripId) =
      (generateJsonChunks parse str text config n₂).map (List.map stripId) := by
  unfold generateJsonChunks
  cases parse text with
  | none => exact generateRecursiveChunks_stripId _ _ n₁ n₂
  | some data =>
    dsimp only
    rw [processValue_now_irrelevant str config n₁ n₂ data]
    cases processValue str config n₂ data with
    | none => rfl
    | some contents => simpa using toChunks_stripId "json-chunk-" n₁ n₂ 0 contents

end Determinism

/-- C8 (counterexample): chunk ids embed `Date.now()`, so two
invocations of the fixed-size chunker with identical text and config
but different clock readings disagree on the `id` field. -/
theorem chunker_output_time_dependent :
    generateFixedSizeChunks [97] (mkConfig 5 0 []) 0 ≠
      generateFixedSizeChunks [97] (mkConfig 5 0 []) 1 := by decide

/-- C8 (amended): each core chunker is a pure function of text and
config up to the timestamped `id` field: two invocations with the same
text and config agree on index, content, length and tokenCount of every
chunk, for all clock readings. -/
theorem chunkers_pure_up_to_id :
    ∀ (text : JStr) (config : ChunkingConfig) (n₁ n₂ : Nat)
      (parse : JStr → Option JsVal) (str : JsVal → JStr),
      ((generateFixedSizeChunks text config n₁).map stripId =
        (generateFixedSizeChunks text config n₂).map stripId) ∧
      ((generateRecursiveChunks text config n₁).map (List.map stripId) =
        (generateRecursiveChunks text config n₂).map (List.map stripId)) ∧
      ((generateMarkdownChunks text config n₁).map (List.map stripId) =
        (generateMarkdownChunks text config n₂).map (List.map stripId)) ∧
      ((generateJsonChunks parse str text config n₁).map (List.map stripId) =
        (generateJsonChunks parse str text config n₂).map (List.map stripId)) :=
  fun text config n₁ n₂ parse str =>
    ⟨generateFixedSizeChunks_stripId text config n₁ n₂,
     generateRecursiveChunks_stripId text config n₁ n₂,
     generateRecursiveChunks_stripId text config n₁ n₂,
     generateJsonChunks_stripId parse str text config n₁ n₂⟩

section SliceLemmas

theorem take_min_length_arg (l : List Nat) (k : Nat) :
    l.take (min k l.length) = l.take k := by
  rcases Nat.le_total k l.length with h | h
  · rw [Nat.min_eq_left h]
  · rw [Nat.min_eq_right h, List.take_length,
      List.take_of_length_le h]

theorem jsSlice_natCast (s : JStr) (n : Nat) (b : Int) (hb : 0 ≤ b) :
    jsSlice s ↑n b = (s.drop n).take (b.toNat - n) := by
  obtain ⟨B, rfl⟩ : ∃ B : Nat, b = ↑B := ⟨b.toNat, (Int.toNat_of_nonneg hb).symm⟩
  simp only [jsSlice]
  rw [if_neg (show ¬ ((n : Int) < 0) by omega),
    if_neg (show ¬ ((B : Int) < 0) by omega)]
  have hn : min ((n : Int)) ((s.length : Int)) = ((min n s.length : Nat) : Int) := by
    omega
  have hB : min ((B : Int)) ((s.length : Int)) = ((min B s.length : Nat) : Int) := by
    omega
  rw [hn, hB, Int.toNat_natCast, Int.toNat_natCast, Int.toNat_natCast]
  by_cases h : min n s.length < min B s.length
  · rw [if_pos (show ((min n s.length : Nat) : Int) < ((min B s.length : Nat) : Int)
        by exact_mod_cast h)]
    have hnL : n < s.length := by omega
    have hnB : n < B := by omega
    rw [Nat.min_eq_left (Nat.le_of_lt hnL), List.drop_take]
    rcases Nat.le_total B s.length with hBL | hBL
    · rw [Nat.min_eq_left hBL]
    · rw [Nat.min_eq_right hBL]
      rw [List.take_of_length_le (by rw [List.length_drop]),
        List.take_of_length_le (by rw [List.length_drop]; omega)]
  · rw [if_neg (show ¬ ((min n s.length : Nat) : Int) < ((min B s.length : Nat) : Int)
        by exact_mod_cast h)]
    rcases Nat.lt_or_ge n s.length with hLn | hLn
    · have hBn : B ≤ n := by omega
      rw [Nat.sub_eq_zero_of_le hBn, List.take_zero]
    · rw [List.drop_eq_nil_of_le hLn, List.take_nil]

theorem slice_window (text : JStr) (start : Nat) (cs : Int) (hcs : 1 ≤ cs) :
    jsSlice text ↑start (min (↑start + cs) ↑text.length) =
      (text.drop start).take cs.toNat := by
  have hb : (0 : Int) ≤ min (↑start + cs) ↑text.length := by
    have h1 : (0 : Int) ≤ ↑start + cs := by positivity
    have h2 : (0 : Int) ≤ (text.length : Int) := by positivity
    omega
  rw [jsSlice_natCast text start _ hb]
  have htoNat : (min (↑start + cs) ↑(text.length)).toNat - start =
      min cs.toNat (text.length - start) := by omega
  rw [htoNat, ← List.length_drop, take_min_length_arg]

theorem slice_window_unclamped (text : JStr) (start : Nat) (cs : Int)
    (hcs : 1 ≤ cs) :
    jsSlice text ↑start (↑start + cs) = (text.drop start).take cs.toNat := by
  have hb : (0 : Int) ≤ ↑start + cs := by positivity
  rw [jsSlice_natCast text start _ hb]
  congr 1
  omega

end SliceLemmas

section FixedLemmas

theorem fixedGo_content_shape (text : JStr) (cs : Int) (hcs : 1 ≤ cs)
    (step now : Nat) :
    ∀ (fuel start index : Nat) (c : Chunk),
      c ∈ fixedGo text cs step now start index fuel →
      (∃ s, c.content = (text.drop s).take cs.toNat) ∧
        c.length = c.content.length := by
  intro fuel
  induction fuel with
  | zero => intro start index c hc; simp [fixedGo] at hc
  | succ fuel ih =>
    intro start index c hc
    rw [fixedGo] at hc
    by_cases h : start < text.length
    · rw [if_pos h] at hc
      rcases List.mem_cons.mp hc with rfl | hmem
      · exact ⟨⟨start, by simp [mkChunk, slice_window text start cs hcs]⟩, rfl⟩
      · exact ih (start + step) (index + 1) c hmem
    · rw [if_neg h] at hc
      simp at hc

theorem fixedGo_recon_tail (text : JStr) (cs : Int) (hcs : 1 ≤ cs)
    (coN : Nat) (hco : coN < cs.toNat) (now : Nat) :
    ∀ (fuel start index : Nat), text.length ≤ start + fuel →
      ((fixedGo text cs (cs.toNat - coN) now start index fuel).map
          (fun c => c.content.drop coN)).flatten = text.drop (start + coN) := by
  intro fuel
  induction fuel with
  | zero =>
    intro start index hfuel
    simp [fixedGo, List.drop_eq_nil_of_le (by omega : text.length ≤ start + coN)]
  | succ fuel ih =>
    intro start index hfuel
    rw [fixedGo]
    by_cases h : start < text.length
    · rw [if_pos h]
      simp only [List.map_cons, List.flatten_cons, mkChunk]
      rw [slice_window text start cs hcs,
        ih (start + (cs.toNat - coN)) (index + 1) (by omega),
        List.drop_take, List.drop_drop]
      have h2 : List.drop (start + (cs.toNat - coN) + coN) text =
          (List.drop (start + coN) text).drop (cs.toNat - coN) := by
        rw [List.drop_drop]
        congr 1
        omega
      rw [h2, List.take_append_drop]
    · rw [if_neg h]
      simp [List.drop_eq_nil_of_le (by omega : text.length ≤ start + coN)]

theorem fixed_roundTrip_main (text : JStr) (cs : Int) (coN now : Nat)
    (hcs : 1 ≤ cs) (hco : coN < cs.toNat) :
    reconOverlap coN
        (fixedGo text cs (cs.toNat - coN) now 0 0 (text.length + 1)) = text := by
  by_cases h : 0 < text.length
  · rw [fixedGo, if_pos h, reconOverlap]
    simp only [mkChunk]
    rw [slice_window text 0 cs hcs, List.drop_zero,
      fixedGo_recon_tail text cs hcs coN hco now
        text.length (0 + (cs.toNat - coN)) (0 + 1) (by omega)]
    have harith : 0 + (cs.toNat - coN) + coN = cs.toNat := by omega
    rw [harith, List.take_append_drop]
  · rw [fixedGo, if_neg h]
    have : text = [] := List.length_eq_zero.mp (by omega)
    simp [reconOverlap, this]

end FixedLemmas

/-- C3 (counterexample): with `chunkSize = 1` and `chunkOverlap = 5`
(allowed by the claim, which only asks `chunkOverlap ≥ 0`), the engine
clamps the overlap to `chunkSize - 1 = 0` but the claimed reconstruction
drops 5 characters of every later chunk, losing text. -/
theorem fixed_roundTrip_cex :
    reconOverlap 5 (generateFixedSizeChunks [97, 98, 99] (mkConfig 1 5 []) 0) ≠
      [97, 98, 99] := by decide

/-- C3 (amended): for `chunkSize > 0` and `0 ≤ chunkOverlap < chunkSize`
(the overlap below the window size, so the clamp is the identity),
concatenating the fixed-size chunks while dropping the first
`chunkOverlap` characters of every chunk after the first reconstructs
the input exactly. -/
theorem generateFixedSizeChunks_roundTrip :
    ∀ (text : JStr) (config : ChunkingConfig) (now : Nat),
      0 < config.chunkSize → 0 ≤ config.chunkOverlap →
      config.chunkOverlap < config.chunkSize →
      reconOverlap config.chunkOverlap.toNat
          (generateFixedSizeChunks text config now) = text := by
  intro text config now h1 h2 h3
  unfold generateFixedSizeChunks
  rw [if_neg (by omega)]
  have hmin : min config.chunkOverlap (config.chunkSize - 1) =
      config.chunkOverlap := by omega
  simp only [hmin]
  have hstep : (config.chunkSize - config.chunkOverlap).toNat =
      config.chunkSize.toNat - config.chunkOverlap.toNat := by omega
  rw [hstep]
  exact fixed_roundTrip_main text config.chunkSize config.chunkOverlap.toNat
    now (by omega) (by omega)

theorem generateFixedSizeChunks_roundTrip_witness :
    reconOverlap ((2 : Int)).toNat
        (generateFixedSizeChunks [97, 98, 99, 100, 101, 102, 103]
          (mkConfig 5 2 []) 0) = [97, 98, 99, 100, 101, 102, 103] :=
  generateFixedSizeChunks_roundTrip [97, 98, 99, 100, 101, 102, 103]
    (mkConfig 5 2 []) 0 (by decide) (by decide) (by decide)

/-- C5 (counterexample): `"abcdefg"` with `chunkSize = 5`,
`chunkOverlap = 2` yields windows of lengths 5, 4, 1: the second chunk
is not the last yet is shorter than `chunkSize`. -/
theorem fixed_size_budget_cex :
    ¬ ∀ c ∈ (generateFixedSizeChunks [97, 98, 99, 100, 101, 102, 103]
          (mkConfig 5 2 []) 0).dropLast,
        c.length = 5 := by decide

/-- C5 (amended): with `chunkSize > 0` and `0 ≤ chunkOverlap <
chunkSize`, every fixed-size chunk has `length ≤ chunkSize`, and every
chunk shorter than `chunkSize` is a suffix of the text (its window ran
past the end); only when the overlap is zero are the short windows
limited to the final chunk. -/
theorem generateFixedSizeChunks_sizes :
    ∀ (text : JStr) (config : ChunkingConfig) (now : Nat),
      0 < config.chunkSize → 0 ≤ config.chunkOverlap →
      config.chunkOverlap < config.chunkSize →
      ∀ c ∈ generateFixedSizeChunks text config now,
        c.length ≤ config.chunkSize.toNat ∧
          (c.length ≠ config.chunkSize.toNat → c.content <:+ text) := by
  intro text config now h1 h2 h3 c hc
  unfold generateFixedSizeChunks at hc
  rw [if_neg (by omega)] at hc
  obtain ⟨⟨s, hcontent⟩, hlen⟩ :=
    fixedGo_content_shape text config.chunkSize (by omega) _ now _ _ _ c hc
  have hlength : c.length = min config.chunkSize.toNat (text.length - s) := by
    rw [hlen, hcontent, List.length_take, List.length_drop]
  constructor
  · omega
  · intro hne
    have hshort : text.length - s < config.chunkSize.toNat := by omega
    have : c.content = text.drop s := by
      rw [hcontent, List.take_of_length_le (by rw [List.length_drop]; omega)]
    rw [this]
    exact List.drop_suffix s text

theorem generateFixedSizeChunks_sizes_witness :
    (mkChunk "chunk-" 0 0 [97, 98, 99, 100, 101]).length ≤ (5 : Int).toNat ∧
      ((mkChunk "chunk-" 0 0 [97, 98, 99, 100, 101]).length ≠ (5 : Int).toNat →
        (mkChunk "chunk-" 0 0 [97, 98, 99, 100, 101]).content <:+
          [97, 98, 99, 100, 101, 102, 103]) :=
  generateFixedSizeChunks_sizes [97, 98, 99, 100, 101, 102, 103]
    (mkConfig 5 2 []) 0 (by decide) (by decide) (by decide)
    (mkChunk "chunk-" 0 0 [97, 98, 99, 100, 101]) (by decide)

section CodePoints

theorem codePointCount_of_no_high_surrogate :
    ∀ l : JStr, (∀ u ∈ l, u < 0xD800 ∨ 0xDBFF < u) →
      codePointCount l = l.length
  | [], _ => rfl
  | [_], _ => rfl
  | u :: v :: rest, h => by
    have hu := h u (by simp)
    have hcond : (0xD800 ≤ u && u < 0xDC00 && 0xDC00 ≤ v && v < 0xE000) = false := by
      rcases hu with hu | hu <;> simp <;> omega
    rw [codePointCount, hcond]
    simp only [Bool.false_eq_true, if_false, List.length_cons]
    rw [codePointCount_of_no_high_surrogate (v :: rest)
      (fun x hx => h x (List.mem_cons_of_mem u hx))]
    simp [Nat.add_comm]

theorem fixedGo_length_field (text : JStr) (cs : Int) (step now : Nat) :
    ∀ (fuel start index : Nat) (c : Chunk),
      c ∈ fixedGo text cs step now start index fuel →
      c.length = c.content.length := by
  intro fuel
  induction fuel with
  | zero => intro start index c hc; simp [fixedGo] at hc
  | succ fuel ih =>
    intro start index c hc
    rw [fixedGo] at hc
    by_cases h : start < text.length
    · rw [if_pos h] at hc
      rcases List.mem_cons.mp hc with rfl | hmem
      · rfl
      · exact ih (start + step) (index + 1) c hmem
    · rw [if_neg h] at hc
      simp at hc

theorem generateRecursiveChunks_length_field (text : JStr)
    (config : ChunkingConfig) (now : Nat) (cks : List Chunk)
    (hsome : generateRecursiveChunks text config now = some cks) :
    ∀ c ∈ cks, c.length = c.content.length := by
  unfold generateRecursiveChunks at hsome
  rcases hmatch : recurseSeg config.chunkSize config.chunkOverlap
      (text.length + config.separators.length + 1) text config.separators with
    _ | segs
  · rw [hmatch] at hsome
    exact absurd hsome (by simp)
  · rw [hmatch] at hsome
    simp only [Option.some.injEq] at hsome
    subst hsome
    exact fun c hc => toChunks_length_eq "rec-chunk-" now 0 _ c hc

end CodePoints

/-- C9 (counterexample): a chunk holding the single astral character
U+1D11E (surrogate pair D834 DD1E) has `length = 2`, the UTF-16
code-unit count, not its code-point count 1. -/
theorem chunk_length_not_codePointCount :
    ¬ ∀ c ∈ generateFixedSizeChunks [0xD834, 0xDD1E] (mkConfig 5 0 []) 0,
        c.length = codePointCount c.content := by decide

/-- C9 (amended): for every strategy, a chunk's `length` equals the
UTF-16 code-unit count of its content (JS `String.prototype.length`),
which agrees with the code-point count exactly when the content has no
high surrogate, i.e. no character outside the Basic Multilingual
Plane. -/
theorem chunk_length_counts_utf16_units :
    (∀ (text : JStr) (config : ChunkingConfig) (now : Nat),
        ∀ c ∈ generateFixedSizeChunks text config now,
          c.length = c.content.length) ∧
    (∀ (text : JStr) (config : ChunkingConfig) (now : Nat)
        (cks : List Chunk),
        generateRecursiveChunks text config now = some cks →
        ∀ c ∈ cks, c.length = c.content.length) ∧
    (∀ (text : JStr) (config : ChunkingConfig) (now : Nat)
        (cks : List Chunk),
        generateMarkdownChunks text config now = some cks →
        ∀ c ∈ cks, c.length = c.content.length) ∧
    (∀ (parse : JStr → Option JsVal) (str : JsVal → JStr) (text : JStr)
        (config : ChunkingConfig) (now : Nat) (cks : List Chunk),
        generateJsonChunks parse str text config now = some cks →
        ∀ c ∈ cks, c.length = c.content.length) ∧
    (∀ l : JStr, (∀ u ∈ l, u < 0xD800 ∨ 0xDBFF < u) →
        codePointCount l = l.length) := by
  refine ⟨?_, ?_, ?_, ?_, codePointCount_of_no_high_surrogate⟩
  · intro text config now c hc
    unfold generateFixedSizeChunks at hc
    split at hc
    · simp at hc
    · exact fixedGo_length_field text config.chunkSize _ now _ _ _ c hc
  · exact generateRecursiveChunks_length_field
  · exact generateRecursiveChunks_length_field
  · intro parse str text config now cks hsome c hc
    unfold generateJsonChunks at hsome
    rcases hparse : parse text with _ | data
    · rw [hparse] at hsome
      exact generateRecursiveChunks_length_field text config now cks hsome c hc
    · rw [hparse] at hsome
      dsimp only at hsome
      rcases hpv : processValue str config now data with _ | contents
      · rw [hpv] at hsome
        exact absurd hsome (by simp)
      · rw [hpv] at hsome
        simp only [Option.map_some', Option.some.injEq] at hsome
        subst hsome
        exact toChunks_length_eq "json-chunk-" now 0 contents c hc

theorem chunk_length_counts_utf16_units_witness :
    (mkChunk "rec-chunk-" 0 0 [97]).length =
      (mkChunk "rec-chunk-" 0 0 [97]).content.length :=
  chunk_length_counts_utf16_units.2.1 [97] (mkConfig 5 0 []) 0
    [mkChunk "rec-chunk-" 0 0 [97]] (by decide)
    (mkChunk "rec-chunk-" 0 0 [97]) (by decide)

section SplitLemmas

theorem isPre_iff : ∀ (p s : JStr), isPre p s = true ↔ ∃ t, s = p ++ t
  | [], s => by simp [isPre]
  | _ :: _, [] => by simp [isPre]
  | a :: p, b :: s => by
    rw [isPre, Bool.and_eq_true, beq_iff_eq, isPre_iff p s]
    constructor
    · rintro ⟨rfl, t, rfl⟩
      exact ⟨t, rfl⟩
    · rintro ⟨t, ht⟩
      injection ht with h1 h2
      exact ⟨h1.symm, t, h2⟩

theorem findSub_some (sep : JStr) :
    ∀ (s : JStr) (i : Nat), findSub sep s = some i →
      ∃ t, s.drop i = sep ++ t := by
  intro s
  induction s with
  | nil =>
    intro i h
    rw [findSub] at h
    split at h
    · next hpre =>
      obtain rfl : (0 : Nat) = i := by simpa using h
      simpa using (isPre_iff sep []).mp hpre
    · exact absurd h (by simp)
  | cons u tl ihs =>
    intro i h
    rw [findSub] at h
    split at h
    · next hpre =>
      obtain rfl : (0 : Nat) = i := by simpa using h
      simpa using (isPre_iff sep (u :: tl)).mp hpre
    · rcases hf : findSub sep tl with _ | j
      · rw [hf] at h
        simp at h
      · rw [hf] at h
        simp only [Option.map_some', Option.some.injEq] at h
        subst h
        obtain ⟨t, ht⟩ := ihs j hf
        exact ⟨t, by simpa [List.drop_succ_cons] using ht⟩

theorem findSub_decompose (sep s : JStr) (i : Nat)
    (h : findSub sep s = some i) :
    s = s.take i ++ sep ++ s.drop (i + sep.length) := by
  obtain ⟨t, ht⟩ := findSub_some sep s i h
  have hdrop : s.drop (i + sep.length) = t := by
    rw [← List.drop_drop, ht, List.drop_left]
  calc s = s.take i ++ s.drop i := (List.take_append_drop i s).symm
    _ = s.take i ++ (sep ++ t) := by rw [ht]
    _ = s.take i ++ sep ++ s.drop (i + sep.length) := by
        rw [hdrop, List.append_assoc]

theorem splitGo_ne_nil (sep : JStr) :
    ∀ (fuel : Nat) (s : JStr), splitGo sep fuel s ≠ [] := by
  intro fuel s
  cases fuel with
  | zero => simp [splitGo]
  | succ fuel =>
    rw [splitGo]
    split <;> simp

theorem withSeps_cons_of_ne_nil (sep p : JStr) (l : List JStr) (h : l ≠ []) :
    withSeps sep (p :: l) = (p ++ sep) :: withSeps sep l := by
  cases l with
  | nil => exact absurd rfl h
  | cons q r => rfl

theorem splitGo_flatten (sep : JStr) (hsep : sep ≠ []) :
    ∀ (fuel : Nat) (s : JStr), s.length ≤ fuel →
      (withSeps sep (splitGo sep fuel s)).flatten = s := by
  intro fuel
  induction fuel with
  | zero =>
    intro s hs
    simp [splitGo, withSeps]
  | succ fuel ih =>
    intro s hs
    rw [splitGo]
    rcases hf : findSub sep s with _ | i
    · simp [withSeps]
    · rw [withSeps_cons_of_ne_nil sep _ _ (splitGo_ne_nil sep fuel _),
        List.flatten_cons]
      have hL : 1 ≤ sep.length := by
        cases sep
        · exact absurd rfl hsep
        · simp
      have hlen : (s.drop (i + sep.length)).length ≤ fuel := by
        rw [List.length_drop]
        omega
      rw [ih _ hlen]
      exact (findSub_decompose sep s i hf).symm

theorem withSeps_nil : ∀ l : List JStr, withSeps [] l = l := by
  intro l
  induction l with
  | nil => rfl
  | cons p tl ih =>
    cases tl with
    | nil => simp [withSeps]
    | cons q r => simp [withSeps, ih]

theorem flatten_map_singleton : ∀ s : JStr, (s.map (fun u => [u])).flatten = s := by
  intro s
  induction s with
  | nil => rfl
  | cons u tl ih => simp [ih]

theorem jsSplit_withSeps_flatten (s sep : JStr) :
    (withSeps sep (jsSplit s sep)).flatten = s := by
  cases sep with
  | nil => rw [jsSplit, withSeps_nil, flatten_map_singleton]
  | cons a t => exact splitGo_flatten (a :: t) (by simp) s.length s (le_refl _)

end SplitLemmas

section RecursiveFlatten

theorem hardSplitGo_flatten (txt : JStr) (cs : Int) (hcs : 1 ≤ cs) :
    ∀ (fuel : Nat) (i : Int) (segs : List JStr), 0 ≤ i →
      hardSplitGo txt cs cs i fuel = some segs →
      segs.flatten = txt.drop i.toNat := by
  intro fuel
  induction fuel with
  | zero =>
    intro i segs hi h
    rw [hardSplitGo] at h
    split at h
    · exact absurd h (by simp)
    · next hge =>
      obtain rfl : ([] : List JStr) = segs := by simpa using h
      rw [List.drop_eq_nil_of_le (by omega)]
      rfl
  | succ fuel ih =>
    intro i segs hi h
    obtain ⟨k, rfl⟩ : ∃ k : Nat, i = (k : Int) :=
      ⟨i.toNat, (Int.toNat_of_nonneg hi).symm⟩
    rw [hardSplitGo] at h
    split at h
    · rcases hrec : hardSplitGo txt cs cs ((k : Int) + cs) fuel with _ | rest
      · rw [hrec] at h
        exact absurd h (by simp)
      · rw [hrec] at h
        simp only [Option.some.injEq] at h
        subst h
        have hrest := ih ((k : Int) + cs) rest (by omega) hrec
        rw [show (((k : Int) + cs)).toNat = k + cs.toNat from by omega] at hrest
        rw [List.flatten_cons, hrest, slice_window_unclamped txt k cs hcs,
          Int.toNat_natCast, ← List.drop_drop, List.take_append_drop]
    · next hge =>
      obtain rfl : ([] : List JStr) = segs := by simpa using h
      rw [Int.toNat_natCast, List.drop_eq_nil_of_le (by omega)]
      rfl

theorem hardSplitGo_isSome (txt : JStr) (cs step : Int) (hstep : 1 ≤ step) :
    ∀ (fuel : Nat) (i : Int), (txt.length : Int) ≤ i + fuel →
      (hardSplitGo txt cs step i fuel).isSome := by
  intro fuel
  induction fuel with
  | zero =>
    intro i hfuel
    rw [hardSplitGo, if_neg (by omega)]
    rfl
  | succ fuel ih =>
    intro i hfuel
    rw [hardSplitGo]
    split
    · have hs := ih (i + step) (by omega)
      rcases hrec : hardSplitGo txt cs step (i + step) fuel with _ | rest
      · rw [hrec] at hs
        exact absurd hs (by simp)
      · rfl
    · rfl

theorem foldrFlatten (f : JStr → Option (List JStr))
    (hf : ∀ p sg, f p = some sg → sg.flatten = p) :
    ∀ (parts : List JStr) (segs : List JStr),
      parts.foldr
          (fun p acc => (f p).bind
            (fun segs => acc.bind (fun rest => some (segs ++ rest))))
          (some []) = some segs →
      segs.flatten = parts.flatten := by
  intro parts
  induction parts with
  | nil =>
    intro segs h
    obtain rfl : ([] : List JStr) = segs := by simpa using h
    rfl
  | cons p rest ihp =>
    intro segs h
    simp only [List.foldr_cons] at h
    rcases ha : f p with _ | a
    · rw [ha] at h
      simp at h
    · rw [ha] at h
      rcases hb : rest.foldr
          (fun p acc => (f p).bind
            (fun segs => acc.bind (fun rest => some (segs ++ rest))))
          (some []) with _ | b
      · rw [hb] at h
        simp at h
      · rw [hb] at h
        simp only [Option.some_bind, Option.some.injEq] at h
        subst h
        rw [List.flatten_append, List.flatten_cons, hf p a ha, ihp b hb]

theorem foldrIsSome (f : JStr → Option (List JStr)) :
    ∀ parts : List JStr, (∀ p ∈ parts, (f p).isSome) →
      (parts.foldr
          (fun p acc => (f p).bind
            (fun segs => acc.bind (fun rest => some (segs ++ rest))))
          (some [])).isSome := by
  intro parts
  induction parts with
  | nil => intro _; rfl
  | cons p rest ihp =>
    intro hall
    simp only [List.foldr_cons]
    obtain ⟨a, ha⟩ := Option.isSome_iff_exists.mp (hall p (by simp))
    obtain ⟨b, hb⟩ := Option.isSome_iff_exists.mp
      (ihp (fun q hq => hall q (by simp [hq])))
    rw [ha, hb]
    rfl

theorem recurseSeg_flatten (cs : Int) (hcs : 1 ≤ cs) :
    ∀ (fuel : Nat) (txt : JStr) (seps : List JStr) (segs : List JStr),
      recurseSeg cs 0 fuel txt seps = some segs → segs.flatten = txt := by
  intro fuel
  induction fuel with
  | zero =>
    intro txt seps segs h
    exact absurd h (by simp [recurseSeg])
  | succ fuel ih =>
    intro txt seps segs h
    rw [recurseSeg.eq_def] at h
    dsimp only at h
    split at h
    · obtain rfl : [txt] = segs := by simpa using h
      simp
    · cases seps with
      | nil =>
        dsimp only at h
        rw [Int.sub_zero] at h
        simpa using hardSplitGo_flatten txt cs hcs (fuel + 1) 0 segs le_rfl h
      | cons sep next =>
        dsimp only at h
        split at h
        · exact (foldrFlatten (fun p => recurseSeg cs 0 fuel p next)
              (fun p sg hsg => ih p next sg hsg) _ segs h).trans
            (jsSplit_withSeps_flatten txt sep)
        · exact ih txt next segs h

theorem length_le_of_mem_flatten {L : List JStr} {l : JStr} (h : l ∈ L) :
    l.length ≤ L.flatten.length :=
  List.IsInfix.length_le (List.infix_of_mem_flatten h)

theorem recurseSeg_isSome (cs co : Int) (hstep : 1 ≤ cs - co) :
    ∀ (fuel : Nat) (txt : JStr) (seps : List JStr),
      txt.length + seps.length < fuel →
      (recurseSeg cs co fuel txt seps).isSome := by
  intro fuel
  induction fuel with
  | zero => intro txt seps h; omega
  | succ fuel ih =>
    intro txt seps h
    rw [recurseSeg.eq_def]
    dsimp only
    split
    · rfl
    · cases seps with
      | nil =>
        dsimp only
        exact hardSplitGo_isSome txt cs (cs - co) hstep (fuel + 1) 0 (by
          push_cast
          omega)
      | cons sep next =>
        dsimp only
        split
        · apply foldrIsSome
          intro p hp
          apply ih p next
          have hlen : p.length ≤ txt.length := by
            have h1 := length_le_of_mem_flatten hp
            rw [jsSplit_withSeps_flatten txt sep] at h1
            exact h1
          simp only [List.length_cons] at h
          omega
        · apply ih txt next
          simp only [List.length_cons] at h
          omega

end RecursiveFlatten

section PackLemmas

theorem packGo_flatten_zero (cs : Int) :
    ∀ (segs : List JStr) (current : JStr),
      (packGo cs 0 segs current).flatten = current ++ segs.flatten := by
  intro segs
  induction segs with
  | nil =>
    intro current
    rw [packGo]
    split
    · simp
    · next hlen =>
      obtain rfl : current = [] := List.length_eq_zero.mp (by omega)
      rfl
  | cons seg rest ih =>
    intro current
    rw [packGo]
    split
    · next hcond =>
      have hseed : jsSlice current (max 0 ((current.length : Int) - 0))
          ((current.length : Int)) = [] := by
        rw [show max 0 ((current.length : Int) - 0) =
            ((current.length : Nat) : Int) from by omega,
          jsSlice_natCast current current.length _ (by positivity)]
        simp [List.drop_length]
      rw [List.flatten_cons, hseed, List.nil_append, ih seg,
        List.flatten_cons]
    · rw [ih (current ++ seg), List.flatten_cons, List.append_assoc]

theorem packGo_mem_ne_nil (cs co : Int) :
    ∀ (segs : List JStr) (current : JStr) (c : JStr),
      c ∈ packGo cs co segs current → c ≠ [] := by
  intro segs
  induction segs with
  | nil =>
    intro current c hc
    rw [packGo] at hc
    split at hc
    · next hlen =>
      obtain rfl : c = current := by simpa using hc
      intro hnil
      rw [hnil] at hlen
      simp at hlen
    · simp at hc
  | cons seg rest ih =>
    intro current c hc
    rw [packGo] at hc
    split at hc
    · next hcond =>
      rcases List.mem_cons.mp hc with rfl | hmem
      · intro hnil
        rw [hnil] at hcond
        simp at hcond
      · exact ih _ c hmem
    · exact ih _ c hc

theorem jsTrimNonEmpty_of (c : JStr) (hne : c ≠ [])
    (hws : ∀ u ∈ c, isJsWs u = false) : jsTrimNonEmpty c = true := by
  cases c with
  | nil => exact absurd rfl hne
  | cons x tl =>
    rw [jsTrimNonEmpty, List.any_eq_true]
    refine ⟨x, by simp, ?_⟩
    rw [hws x (by simp)]
    rfl

end PackLemmas

/-- C2 (counterexample): the recursive chunker breaks the claimed
round-trip under its stated hypotheses.  A whitespace-only input
(`" "`, size 2, overlap 0) is discarded by the trim filter, and with a
positive overlap (text `"abcdefghij"`, size 4, overlap 1, no
separators) the hard split duplicates characters inside the packed
chunks beyond the declared overlap. -/
theorem recursive_roundTrip_cex :
    (generateRecursiveChunks [32] (mkConfig 2 0 []) 0).map (reconOverlap 0) ≠
      some [32] ∧
    (generateRecursiveChunks [97, 98, 99, 100, 101, 102, 103, 104, 105, 106]
        (mkConfig 4 1 []) 0).map (reconOverlap 1) ≠
      some [97, 98, 99, 100, 101, 102, 103, 104, 105, 106] :=
  ⟨by decide, by decide⟩

/-- C2 (amended): for a config with `chunkSize ≥ 1` and
`chunkOverlap = 0`, and an input none of whose characters is JS
whitespace (so the trim filter discards nothing), the recursive chunker
terminates and the concatenation of its chunk contents in index order
is exactly the input.  The restriction to zero overlap is forced: with
a positive overlap the Phase A hard split already duplicates characters
inside segments, beyond the declared inter-chunk overlap. -/
theorem generateRecursiveChunks_roundTrip :
    ∀ (text : JStr) (config : ChunkingConfig) (now : Nat),
      1 ≤ config.chunkSize → config.chunkOverlap = 0 →
      (∀ u ∈ text, isJsWs u = false) →
      ∃ cks, generateRecursiveChunks text config now = some cks ∧
        (cks.map Chunk.content).flatten = text := by
  intro text config now hcs hco hws
  unfold generateRecursiveChunks
  rw [hco]
  obtain ⟨segs, hsegs⟩ := Option.isSome_iff_exists.mp
    (recurseSeg_isSome config.chunkSize 0 (by omega)
      (text.length + config.separators.length + 1) text config.separators
      (by omega))
  rw [hsegs]
  refine ⟨_, rfl, ?_⟩
  have hflat : segs.flatten = text :=
    recurseSeg_flatten config.chunkSize hcs _ text config.separators segs hsegs
  have hpack : (packGo config.chunkSize 0 segs []).flatten = text := by
    rw [packGo_flatten_zero, List.nil_append, hflat]
  have hfilter : (packGo config.chunkSize 0 segs []).filter
      (fun c => jsTrimNonEmpty c) = packGo config.chunkSize 0 segs [] := by
    apply List.filter_eq_self.mpr
    intro c hcmem
    apply jsTrimNonEmpty_of c (packGo_mem_ne_nil config.chunkSize 0 segs [] c hcmem)
    intro u humem
    apply hws
    have hu : u ∈ (packGo config.chunkSize 0 segs []).flatten :=
      List.mem_flatten.mpr ⟨c, hcmem, humem⟩
    rw [hpack] at hu
    exact hu
  rw [hfilter, toChunks_map_content, hpack]

theorem generateRecursiveChunks_roundTrip_witness :
    ∃ cks, generateRecursiveChunks [97, 98] (mkConfig 1 0 []) 0 = some cks ∧
      (cks.map Chunk.content).flatten = [97, 98] :=
  generateRecursiveChunks_roundTrip [97, 98] (mkConfig 1 0 []) 0
    (by decide) (by decide) (by decide)

section JsonBatch

theorem batchArrGo_singletons (str : JsVal → JStr) (cs : Int)
    (items : List JsVal)
    (hpair : ∀ a ∈ items, ∀ b ∈ items,
      cs < ((str a).length : Int) + ((str b).length : Int) + 4) :
    ∀ (rest : List JsVal) (x : JsVal) (size : Int),
      x ∈ items → (∀ b ∈ rest, b ∈ items) →
      size = ((str x).length : Int) + 2 →
      batchArrGo str cs rest [x] size =
        (x :: rest).map (fun it => str (JsVal.arr [it])) := by
  intro rest
  induction rest with
  | nil =>
    intro x size hx hsub hsize
    rw [batchArrGo]
    simp
  | cons b rest' ih =>
    intro x size hx hsub hsize
    simp only [batchArrGo]
    rw [if_pos ⟨by
        have hp := hpair x hx b (hsub b (by simp))
        omega, by simp⟩]
    rw [ih b _ (hsub b (by simp)) (fun q hq => hsub q (by simp [hq])) rfl]
    simp

end JsonBatch

/-- C6: when the input parses as a JSON array whose full serialisation
exceeds `chunkSize`, while each element's serialisation plus the
2-character per-item overhead fits in `chunkSize` but no two elements
do, `generateJsonChunks` emits one chunk per element, each serialising
the singleton array of that element, in original order with contiguous
indices. -/
theorem generateJsonChunks_arrayBatches :
    ∀ (parse : JStr → Option JsVal) (str : JsVal → JStr) (text : JStr)
      (config : ChunkingConfig) (now : Nat) (items : List JsVal),
      parse text = some (JsVal.arr items) →
      config.chunkSize < ((str (JsVal.arr items)).length : Int) →
      (∀ a ∈ items, ((str a).length : Int) + 2 ≤ config.chunkSize) →
      (∀ a ∈ items, ∀ b ∈ items,
        config.chunkSize <
          ((str a).length : Int) + ((str b).length : Int) + 4) →
      generateJsonChunks parse str text config now =
        some (toChunks "json-chunk-" now 0
          (items.map (fun it => str (JsVal.arr [it])))) := by
  intro parse str text config now items hparse hbig hone hpair
  unfold generateJsonChunks
  rw [hparse]
  dsimp only
  unfold processValue
  rw [if_neg (by omega)]
  dsimp only
  rw [Option.map_some']
  have hlist : batchArrGo str config.chunkSize items [] 0 =
      items.map (fun it => str (JsVal.arr [it])) := by
    cases items with
    | nil =>
      rw [batchArrGo]
      simp
    | cons x rest =>
      simp only [batchArrGo]
      rw [if_neg (by
        rintro ⟨-, h2⟩
        simp at h2)]
      rw [show ((0 : Int) + ((str x).length : Int) + 2) =
          ((str x).length : Int) + 2 from by ring]
      rw [List.nil_append]
      exact batchArrGo_singletons str config.chunkSize (x :: rest) hpair rest x
        _ (by simp) (fun q hq => by simp [hq]) rfl
  rw [hlist]

theorem generateJsonChunks_arrayBatches_witness :
    generateJsonChunks
        (fun t => if t = [91] then
          some (JsVal.arr [JsVal.prim [48], JsVal.prim [49]]) else none)
        (fun v => match v with
          | JsVal.prim s => s
          | JsVal.arr l => List.replicate (4 * l.length + 2) 91
          | JsVal.obj _ => [])
        [91] (mkConfig 4 0 []) 0 =
      some (toChunks "json-chunk-" 0 0
        ([JsVal.prim [48], JsVal.prim [49]].map
          (fun it => (fun v => match v with
            | JsVal.prim s => s
            | JsVal.arr l => List.replicate (4 * l.length + 2) 91
            | JsVal.obj _ => []) (JsVal.arr [it])))) := by
  apply generateJsonChunks_arrayBatches
  · rfl
  · decide
  · intro a ha
    simp only [List.mem_cons, List.not_mem_nil, or_false] at ha
    rcases ha with rfl | rfl <;> decide
  · intro a ha b hb
    simp only [List.mem_cons, List.not_mem_nil, or_false] at ha hb
    rcases ha with rfl | rfl <;> rcases hb with rfl | rfl <;> decide
